import Mathlib

/-!
Verification development for the lung-segmentation tool.

This file gives a shallow embedding of the core of the repository:

* `src/core/processing.py` — the mask-refinement pipeline `refine_mask`
  and its stage helpers (`_apply_hu_dilation`, `_apply_morphological_closing`,
  `_remove_small_components`, `_fill_holes_2d`);
* `src/gui/workers.py` — the inlined pipeline
  `MaskRefinementWorker._refine_with_progress`;
* `src/gui/widgets/roi_selector.py` — `ROIManager` and
  `get_combined_roi_coords`;
* `src/core/state_manager.py` — the `UIState` enum and the capability
  predicates of `UIStateManager`.

Modelling conventions.

* A numpy binary mask array is modelled as its shape together with the
  finite set of foreground voxel coordinates (`Mask`).  Voxel coordinates
  are triples `(z, y, x)` of naturals.  The masks the pipeline handles are
  binary (values in {0, 1}), so the foreground set determines the array.
* The intensity volume is a shape plus an intensity function; Hounsfield
  values (Python floats) are modelled as rationals, as are the float
  statistics (`improvement_percent`, `volume_ml`) and the literal `0.01`
  threshold of `_remove_small_components`.
* `scipy.ndimage.label` uses the default rank-1 structuring element, i.e.
  6-connectivity in 3D; it is modelled concretely by `componentsOf`, the
  set of 6-connected components of the foreground, computed by an
  iterated neighbourhood expansion (a flood fill).
* The other scipy morphological operations (`binary_dilation`,
  `binary_closing`, `binary_fill_holes`) are external collaborators whose
  internal semantics none of the checked properties depend on; they are
  passed as an explicit record of functions (`ScipyOps`), mirroring the
  spec's treatment of scipy as an opaque capability.
* Python dictionaries with varying key sets (per-stage statistics) are
  modelled as association lists `List (String × ℤ)` in insertion order.
* `numpy` elementwise `&` follows the broadcasting rule for the two
  rank-3 operands the pipeline feeds it: on each axis the sizes must
  agree or one of them must be 1 (a size-1 axis is read at index 0);
  incompatible shapes raise (`RefineErr.broadcast_error`).
-/

/-- Voxel coordinate `(z, y, x)` of a 3D array. -/
abbrev Pt : Type := ℕ × ℕ × ℕ

/-- 6-neighbourhood adjacency of voxels: the two coordinates differ by one
in exactly one axis.  This is the default (rank-1) structuring element of
`scipy.ndimage.label`. -/
def adjacentB (p q : Pt) : Bool :=
  decide ((p.1 = q.1 ∧ p.2.1 = q.2.1 ∧ (p.2.2 + 1 = q.2.2 ∨ q.2.2 + 1 = p.2.2)) ∨
          (p.1 = q.1 ∧ (p.2.1 + 1 = q.2.1 ∨ q.2.1 + 1 = p.2.1) ∧ p.2.2 = q.2.2) ∨
          ((p.1 + 1 = q.1 ∨ q.1 + 1 = p.1) ∧ p.2.1 = q.2.1 ∧ p.2.2 = q.2.2))

/-- A binary numpy array: shape `(depth, height, width)` plus the set of
foreground (nonzero) voxels. -/
@[ext]
structure Mask where
  shape : ℕ × ℕ × ℕ
  fg : Finset Pt
deriving DecidableEq

/-- One step of the flood fill used to model `scipy.ndimage.label`:
add to `s` every foreground voxel adjacent to a voxel of `s`. -/
def expand (fg s : Finset Pt) : Finset Pt :=
  s ∪ fg.filter (fun q => ∃ p ∈ s, adjacentB p q = true)

/-- Flood fill from `p` inside the foreground `fg`: iterating the
one-step expansion `fg.card` times reaches a fixed point, which is the
6-connected component of `p` (when `p ∈ fg`). -/
def reachSet (fg : Finset Pt) (p : Pt) : Finset Pt :=
  (expand fg)^[fg.card] {p}

/-- One step of connectivity inside the foreground `fg`. -/
def adjStep (fg : Finset Pt) (a b : Pt) : Prop :=
  b ∈ fg ∧ adjacentB a b = true

/-- Connectivity inside the foreground `fg`. -/
def reaches (fg : Finset Pt) (p q : Pt) : Prop :=
  Relation.ReflTransGen (adjStep fg) p q

/-- The set of 6-connected components of the foreground `fg`; this is the
partition that `scipy.ndimage.label` computes (labels and order are
irrelevant to every use in the source). -/
def componentsOf (fg : Finset Pt) : Finset (Finset Pt) :=
  fg.image (fun p => reachSet fg p)

/-- An intensity volume: shape plus Hounsfield-like value per voxel
(floats modelled as rationals). -/
structure Volume where
  shape : ℕ × ℕ × ℕ
  val : Pt → ℚ

/-- The parameter dictionary of `refine_mask`, with the five keys the
pipeline reads (`hu_min`, `hu_max`, `dilation_iter`, `closing_size`,
`fill_holes`). -/
structure RefineParams where
  hu_min : ℚ
  hu_max : ℚ
  dilation_iter : ℕ
  closing_size : ℕ
  fill_holes : Bool
deriving DecidableEq

/-- The external scipy morphological operations the pipeline calls.
They are opaque collaborators: every checked property holds for any
choice of these functions, so they are passed as a record. -/
structure ScipyOps where
  binary_dilation : Mask → ℕ → Mask
  binary_closing : Mask → ℕ → Mask
  fill_holes_slice : ℕ × ℕ → Finset (ℕ × ℕ) → Finset (ℕ × ℕ)

/-- A trivial instantiation of the external operations, used to evaluate
the pipeline on concrete inputs. -/
def idOps : ScipyOps :=
  ⟨fun m _ => m, fun m _ => m, fun _ s => s⟩

/-- Failures the pipeline can raise: the only fallible step is the numpy
elementwise `&` of `dilated` and `lung_tissue` in stage 1, which raises
when the two shapes are not broadcast-compatible. -/
inductive RefineErr
  | broadcast_error
deriving DecidableEq

/-- One entry of the `steps` list of `refine_mask`: the stage name
(the dict's `name` key) together with the stage's statistics dict. -/
abbrev StepEntry : Type := String × List (String × ℤ)

/-- The statistics dict returned by `refine_mask` after `stats.update`:
all keys present at return time. -/
structure RefineStats where
  base_count : ℕ
  steps : List StepEntry
  final_count : ℕ
  improvement_percent : ℚ
  volume_ml : ℚ
  params : RefineParams

/-- All voxel coordinates of an array of the given shape. -/
def grid (shape : ℕ × ℕ × ℕ) : Finset Pt :=
  (Finset.range shape.1) ×ˢ ((Finset.range shape.2.1) ×ˢ (Finset.range shape.2.2))

/-- Broadcast of one numpy axis: the sizes agree, or one of them is 1. -/
def bcastAxis (n m : ℕ) : Option ℕ :=
  if n = m then some n else if n = 1 then some m else if m = 1 then some n else none

/-- The broadcast shape of two 3D operands, when they are compatible. -/
def bcastShape (s t : ℕ × ℕ × ℕ) : Option (ℕ × ℕ × ℕ) :=
  match bcastAxis s.1 t.1, bcastAxis s.2.1 t.2.1, bcastAxis s.2.2 t.2.2 with
  | some d, some hh, some w => some (d, hh, w)
  | _, _, _ => none

/-- The operand index read at a broadcast position: a size-1 axis is
read at index 0. -/
def bcastIdx (n i : ℕ) : ℕ := if n = 1 then 0 else i

/-- The operand coordinate read at a broadcast position. -/
def bcastProj (s : ℕ × ℕ × ℕ) (p : Pt) : Pt :=
  (bcastIdx s.1 p.1, bcastIdx s.2.1 p.2.1, bcastIdx s.2.2 p.2.2)

/-- Elementwise `&` of two binary 3D arrays with numpy broadcasting: on
each axis the sizes must agree or one of them must be 1; otherwise the
operation raises.  (The pipeline only reaches it with rank-3 operands.) -/
def maskAnd (a b : Mask) : Except RefineErr Mask :=
  match bcastShape a.shape b.shape with
  | some sh => .ok ⟨sh, (grid sh).filter
      (fun p => bcastProj a.shape p ∈ a.fg ∧ bcastProj b.shape p ∈ b.fg)⟩
  | none => .error RefineErr.broadcast_error

/-- The boolean array `(volume >= hu_min) & (volume <= hu_max)` of stage 1
(identical lines in `processing.py` and `workers.py`). -/
def lung_tissue_mask (volume : Volume) (hu_min hu_max : ℚ) : Mask :=
  ⟨volume.shape,
   (grid volume.shape).filter (fun q => hu_min ≤ volume.val q ∧ volume.val q ≤ hu_max)⟩

/-- The 2D slice `mask[z]` of a mask, as a set of `(y, x)` pairs. -/
def slice_fg (m : Mask) (z : ℕ) : Finset (ℕ × ℕ) :=
  (m.fg.filter (fun p => p.1 = z)).image (fun p => p.2)

/-- In-place update `mask[z] = s` of one 2D slice. -/
def set_slice (m : Mask) (z : ℕ) (s : Finset (ℕ × ℕ)) : Mask :=
  ⟨m.shape, m.fg.filter (fun p => p.1 ≠ z) ∪ s.image (fun yx => (z, yx.1, yx.2))⟩

/-- The statement `mask[z] = ndimage.binary_fill_holes(mask[z])`. -/
def fill_slice (ops : ScipyOps) (m : Mask) (z : ℕ) : Mask :=
  set_slice m z (ops.fill_holes_slice (m.shape.2.1, m.shape.2.2) (slice_fg m z))

/-- `max_size`, the voxel count of the largest connected component
(`np.max(sizes)` in `_remove_small_components`). -/
def maxSizeOf (comps : Finset (Finset Pt)) : ℕ :=
  comps.sup Finset.card

/-- The components that survive `_remove_small_components`: those whose
size exceeds `max_size * 0.01` (the loop `if size > threshold`). -/
def keptComps (comps : Finset (Finset Pt)) : Finset (Finset Pt) :=
  comps.filter (fun c => (c.card : ℚ) > (maxSizeOf comps : ℚ) * (1 / 100))

/-- Embedding of `_remove_small_components` (`src/core/processing.py`,
lines 148-192): label the 6-connected components, return the mask
unchanged when there are none, otherwise rebuild a cleaned mask from the
components whose size exceeds 1 percent of the largest, together with the
statistics dict the code builds in each branch. -/
def remove_small_components (mask : Mask) : Mask × List (String × ℤ) :=
  let count_before := mask.fg.card
  let comps := componentsOf mask.fg
  if comps.card = 0 then
    (mask, [("voxels_before", (count_before : ℤ)), ("voxels_after", 0),
            ("components_removed", 0)])
  else
    let kept := keptComps comps
    let mask_cleaned : Mask := ⟨mask.shape, kept.biUnion id⟩
    let count_after := mask_cleaned.fg.card
    (mask_cleaned,
     [("voxels_before", (count_before : ℤ)), ("voxels_after", (count_after : ℤ)),
      ("voxels_removed", (count_before : ℤ) - (count_after : ℤ)),
      ("components_total", (comps.card : ℤ)), ("components_kept", (kept.card : ℤ)),
      ("components_removed", (comps.card : ℤ) - (kept.card : ℤ))])

/-- Embedding of `_apply_hu_dilation` (`src/core/processing.py`, lines
85-120): dilate the mask, intersect with the HU-plausible tissue. -/
def apply_hu_dilation (ops : ScipyOps) (mask : Mask) (volume : Volume)
    (hu_min hu_max : ℚ) (iterations : ℕ) :
    Except RefineErr (Mask × List (String × ℤ)) :=
  let count_before := mask.fg.card
  let dilated := ops.binary_dilation mask iterations
  match maskAnd dilated (lung_tissue_mask volume hu_min hu_max) with
  | .error e => .error e
  | .ok m =>
    let count_after := m.fg.card
    .ok (m, [("voxels_before", (count_before : ℤ)), ("voxels_after", (count_after : ℤ)),
             ("voxels_added", (count_after : ℤ) - (count_before : ℤ))])

/-- Embedding of `_apply_morphological_closing` (`src/core/processing.py`,
lines 123-145). -/
def apply_morphological_closing (ops : ScipyOps) (mask : Mask) (size : ℕ) :
    Mask × List (String × ℤ) :=
  let count_before := mask.fg.card
  let m := ops.binary_closing mask size
  let count_after := m.fg.card
  (m, [("voxels_before", (count_before : ℤ)), ("voxels_after", (count_after : ℤ)),
       ("voxels_added", (count_after : ℤ) - (count_before : ℤ))])

/-- Embedding of `_fill_holes_2d` (`src/core/processing.py`, lines
195-221): for each slice with a foreground voxel, fill its holes in
place and count it as processed. -/
def fill_holes_2d (ops : ScipyOps) (mask : Mask) : Mask × List (String × ℤ) :=
  let count_before := mask.fg.card
  let total_slices := mask.shape.1
  let r := (List.range total_slices).foldl
    (fun acc z =>
      if (slice_fg acc.1 z).Nonempty then (fill_slice ops acc.1 z, acc.2 + 1) else acc)
    (mask, (0 : ℕ))
  let count_after := r.1.fg.card
  (r.1, [("voxels_before", (count_before : ℤ)), ("voxels_after", (count_after : ℤ)),
         ("voxels_added", (count_after : ℤ) - (count_before : ℤ)),
         ("slices_processed", (r.2 : ℤ))])

/-- Embedding of `refine_mask` (`src/core/processing.py`, lines 13-82).
The entry copy `mask = base_mask.copy()` and the final
`mask.astype(np.uint8)` are identities on the binary value model (the
aliasing they affect is studied separately on the heap model below). -/
def refine_mask (ops : ScipyOps) (base_mask : Mask) (volume : Volume)
    (spacing : ℚ × ℚ × ℚ) (params : RefineParams) :
    Except RefineErr (Mask × RefineStats) :=
  let base_count := base_mask.fg.card
  let step1 : Except RefineErr (Mask × List StepEntry) :=
    if params.dilation_iter > 0 then
      match apply_hu_dilation ops base_mask volume params.hu_min params.hu_max
          params.dilation_iter with
      | .error e => .error e
      | .ok r => .ok (r.1, [("HU Dilation", r.2)])
    else
      .ok (base_mask, [])
  match step1 with
  | .error e => .error e
  | .ok s1 =>
    let step2 : Mask × List StepEntry :=
      if params.closing_size > 1 then
        let r := apply_morphological_closing ops s1.1 params.closing_size
        (r.1, [("Morphological Closing", r.2)])
      else
        (s1.1, [])
    let r3 := remove_small_components step2.1
    let step4 : Mask × List StepEntry :=
      if params.fill_holes then
        let r := fill_holes_2d ops r3.1
        (r.1, [("Hole Filling", r.2)])
      else
        (r3.1, [])
    let final_count := step4.1.fg.card
    let improvement : ℚ :=
      if base_count > 0 then (((final_count : ℚ) - (base_count : ℚ)) / (base_count : ℚ)) * 100
      else 0
    let volume_ml : ℚ := (final_count : ℚ) * (spacing.1 * spacing.2.1 * spacing.2.2) / 1000
    .ok (step4.1,
      { base_count := base_count,
        steps := s1.2 ++ step2.2 ++ [("Noise Removal", r3.2)] ++ step4.2,
        final_count := final_count,
        improvement_percent := improvement,
        volume_ml := volume_ml,
        params := params })

/-- The stage-4 loop of `MaskRefinementWorker._refine_with_progress`
(`src/gui/workers.py`, lines 217-225): same per-slice fill as
`_fill_holes_2d` but without the processed-slice counter (the worker only
emits progress there, which has no effect on the data). -/
def worker_fill_loop (ops : ScipyOps) (m : Mask) : Mask :=
  (List.range m.shape.1).foldl
    (fun acc z => if (slice_fg acc z).Nonempty then fill_slice ops acc z else acc) m

/-- Embedding of `MaskRefinementWorker._refine_with_progress`
(`src/gui/workers.py`, lines 170-241): the worker's inlined copy of the
pipeline.  It records no per-stage `steps` entries and skips stage 3 when
no component exists (`if num_features > 0`), rather than returning early
inside a helper. -/
def worker_refine_with_progress (ops : ScipyOps) (base_mask : Mask) (volume : Volume)
    (spacing : ℚ × ℚ × ℚ) (params : RefineParams) :
    Except RefineErr (Mask × RefineStats) :=
  let base_count := base_mask.fg.card
  let step1 : Except RefineErr Mask :=
    if params.dilation_iter > 0 then
      maskAnd (ops.binary_dilation base_mask params.dilation_iter)
        (lung_tissue_mask volume params.hu_min params.hu_max)
    else
      .ok base_mask
  match step1 with
  | .error e => .error e
  | .ok mask1 =>
    let mask2 :=
      if params.closing_size > 1 then ops.binary_closing mask1 params.closing_size else mask1
    let comps := componentsOf mask2.fg
    let mask3 : Mask :=
      if comps.card > 0 then ⟨mask2.shape, (keptComps comps).biUnion id⟩ else mask2
    let mask4 := if params.fill_holes then worker_fill_loop ops mask3 else mask3
    let final_count := mask4.fg.card
    let improvement : ℚ :=
      if base_count > 0 then (((final_count : ℚ) - (base_count : ℚ)) / (base_count : ℚ)) * 100
      else 0
    let volume_ml : ℚ := (final_count : ℚ) * (spacing.1 * spacing.2.1 * spacing.2.2) / 1000
    .ok (mask4,
      { base_count := base_count,
        steps := [],
        final_count := final_count,
        improvement_percent := improvement,
        volume_ml := volume_ml,
        params := params })

/-- A z-axis line segment of voxels: `(0, 0, a), ..., (0, 0, a + n - 1)`.
Used to build concrete masks with components of prescribed sizes when
instantiating scenario hypotheses. -/
def seg (a n : ℕ) : Finset Pt :=
  (Finset.range n).image (fun i => (0, 0, a + i))

/-- A heap of numpy arrays, modelling Python reference semantics for the
frame property of `refine_mask`: addresses below `next` are allocated. -/
structure Heap where
  mem : ℕ → Mask
  next : ℕ

/-- Allocation of a fresh array holding value `v`. -/
def halloc (h : Heap) (v : Mask) : Heap × ℕ :=
  (⟨fun a => if a = h.next then v else h.mem a, h.next + 1⟩, h.next)

/-- In-place mutation of the array at address `a`. -/
def hwrite (h : Heap) (a : ℕ) (v : Mask) : Heap :=
  ⟨fun b => if b = a then v else h.mem b, h.next⟩

/-- Heap-level `_fill_holes_2d`: the slice assignments
`mask[z] = ndimage.binary_fill_holes(mask[z])` mutate the array at
address `a` in place. -/
def fill_holes_2d_ref (ops : ScipyOps) (h : Heap) (a : ℕ) :
    Heap × List (String × ℤ) :=
  let count_before := (h.mem a).fg.card
  let total_slices := (h.mem a).shape.1
  let r := (List.range total_slices).foldl
    (fun acc z =>
      if (slice_fg (acc.1.mem a) z).Nonempty
      then (hwrite acc.1 a (fill_slice ops (acc.1.mem a) z), acc.2 + 1)
      else acc)
    (h, (0 : ℕ))
  let count_after := (r.1.mem a).fg.card
  (r.1, [("voxels_before", (count_before : ℤ)), ("voxels_after", (count_after : ℤ)),
         ("voxels_added", (count_after : ℤ) - (count_before : ℤ)),
         ("slices_processed", (r.2 : ℤ))])

/-- Stage 2 at heap level: `binary_closing` returns a fresh result
array, which the local variable `mask` is rebound to. -/
def ref_closing (ops : ScipyOps) (params : RefineParams) (ha : Heap × ℕ) :
    Heap × ℕ × List StepEntry :=
  if params.closing_size > 1 then
    let r := apply_morphological_closing ops (ha.1.mem ha.2) params.closing_size
    let c := halloc ha.1 r.1
    (c.1, c.2, [("Morphological Closing", r.2)])
  else
    (ha.1, ha.2, [])

/-- Stage 3 at heap level: the empty branch of `_remove_small_components`
returns the mask object itself; the other branch builds `mask_cleaned`
with `np.zeros_like`, a fresh array. -/
def ref_noise (ha : Heap × ℕ) : Heap × ℕ :=
  if (componentsOf (ha.1.mem ha.2).fg).card = 0 then (ha.1, ha.2)
  else halloc ha.1 (remove_small_components (ha.1.mem ha.2)).1

/-- Stage 4 at heap level: `_fill_holes_2d` mutates the array in place
and returns the same object. -/
def ref_fill (ops : ScipyOps) (params : RefineParams) (ha : Heap × ℕ) :
    Heap × ℕ × List StepEntry :=
  if params.fill_holes then
    let r := fill_holes_2d_ref ops ha.1 ha.2
    (r.1, ha.2, [("Hole Filling", r.2)])
  else
    (ha.1, ha.2, [])

/-- Heap-level `refine_mask`, tracking which arrays each statement
allocates or mutates: the entry `mask = base_mask.copy()` allocates a
fresh array; stage 1 binds `mask` to the fresh result of `&`; stages 2-4
behave as `ref_closing`, `ref_noise` and `ref_fill`; the final
`astype(np.uint8)` returns a fresh array. -/
def refine_mask_ref (ops : ScipyOps) (h : Heap) (base_addr : ℕ) (volume : Volume)
    (spacing : ℚ × ℚ × ℚ) (params : RefineParams) :
    Except RefineErr (Heap × ℕ × RefineStats) :=
  let c0 := halloc h (h.mem base_addr)
  let base_count := (c0.1.mem c0.2).fg.card
  let step1 : Except RefineErr (Heap × ℕ × List StepEntry) :=
    if params.dilation_iter > 0 then
      match apply_hu_dilation ops (c0.1.mem c0.2) volume params.hu_min params.hu_max
          params.dilation_iter with
      | .error e => .error e
      | .ok r =>
        let c1 := halloc c0.1 r.1
        .ok (c1.1, c1.2, [("HU Dilation", r.2)])
    else
      .ok (c0.1, c0.2, [])
  match step1 with
  | .error e => .error e
  | .ok s1 =>
    let t2 := ref_closing ops params (s1.1, s1.2.1)
    let r3 := remove_small_components (t2.1.mem t2.2.1)
    let t3 := ref_noise (t2.1, t2.2.1)
    let t4 := ref_fill ops params (t3.1, t3.2)
    let c5 := halloc t4.1 (t4.1.mem t4.2.1)
    let final_count := (c5.1.mem c5.2).fg.card
    let improvement : ℚ :=
      if base_count > 0 then (((final_count : ℚ) - (base_count : ℚ)) / (base_count : ℚ)) * 100
      else 0
    let volume_ml : ℚ := (final_count : ℚ) * (spacing.1 * spacing.2.1 * spacing.2.2) / 1000
    .ok (c5.1, c5.2,
      { base_count := base_count,
        steps := s1.2.2 ++ t2.2.2 ++ [("Noise Removal", r3.2)] ++ t4.2.2,
        final_count := final_count,
        improvement_percent := improvement,
        volume_ml := volume_ml,
        params := params })

/-- Failure raised by `ROIManager.get_combined_roi_coords` when a ROI is
missing (`ValueError` in the source). -/
inductive RoiError
  | missing_roi
deriving DecidableEq

/-- State of `ROIManager` (`src/gui/widgets/roi_selector.py`): the two
stored ROI tuples `(z_slice, y_min, y_max, x_min, x_max)`; Python ints
are modelled as ℤ. -/
structure ROIManagerS where
  roi1_3d : Option (ℤ × ℤ × ℤ × ℤ × ℤ)
  roi2_3d : Option (ℤ × ℤ × ℤ × ℤ × ℤ)
deriving DecidableEq

/-- Freshly constructed `ROIManager`. -/
def roi_manager_init : ROIManagerS := ⟨none, none⟩

/-- `ROIManager.set_roi1`: stores `(z_slice, y_min, y_max, x_min, x_max)`. -/
def set_roi1 (m : ROIManagerS) (z_slice x_min x_max y_min y_max : ℤ) : ROIManagerS :=
  ⟨some (z_slice, y_min, y_max, x_min, x_max), m.roi2_3d⟩

/-- `ROIManager.set_roi2`. -/
def set_roi2 (m : ROIManagerS) (z_slice x_min x_max y_min y_max : ℤ) : ROIManagerS :=
  ⟨m.roi1_3d, some (z_slice, y_min, y_max, x_min, x_max)⟩

/-- `ROIManager.has_both_rois`. -/
def has_both_rois (m : ROIManagerS) : Bool :=
  m.roi1_3d.isSome && m.roi2_3d.isSome

/-- Embedding of `ROIManager.get_combined_roi_coords`
(`src/gui/widgets/roi_selector.py`, lines 202-237): union of the two
rectangles per axis, the two slice indices as z extent, then clamping of
the lower bounds to 0 and of the upper bounds to `dim - 1`. -/
def get_combined_roi_coords (m : ROIManagerS) (volume_shape : ℤ × ℤ × ℤ) :
    Except RoiError (ℤ × ℤ × ℤ × ℤ × ℤ × ℤ) :=
  match m.roi1_3d, m.roi2_3d with
  | some (z1_slice, y1_0, y1_1, x1_0, x1_1), some (z2_slice, y2_0, y2_1, x2_0, x2_1) =>
    let x0 := min x1_0 x2_0
    let x1 := max x1_1 x2_1
    let y0 := min y1_0 y2_0
    let y1 := max y1_1 y2_1
    let z0 := min z1_slice z2_slice
    let z1 := max z1_slice z2_slice
    .ok (max 0 z0, min (volume_shape.1 - 1) z1,
         max 0 y0, min (volume_shape.2.1 - 1) y1,
         max 0 x0, min (volume_shape.2.2 - 1) x1)
  | _, _ => .error RoiError.missing_roi

/-- The `UIState` enum of `src/core/state_manager.py`, lines 12-23, with
its nine members in source order (including `ROI2_DEFINED`). -/
inductive UIState
  | initial
  | volume_loaded
  | roi1_defined
  | roi2_defined
  | roi_defined
  | segmenting
  | mask_ready
  | refining
  | saving
deriving DecidableEq, Fintype

/-- The members of the `UIState` enum, in declaration order. -/
def ui_state_all : List UIState :=
  [UIState.initial, UIState.volume_loaded, UIState.roi1_defined, UIState.roi2_defined,
   UIState.roi_defined, UIState.segmenting, UIState.mask_ready, UIState.refining,
   UIState.saving]

/-- State of `UIStateManager`: the widget registry and callbacks only
produce GUI side effects, so the data model is the current state. -/
structure UIStateManagerS where
  current_state : UIState
deriving DecidableEq

/-- `UIStateManager.__init__`: starts in `INITIAL`. -/
def ui_manager_init : UIStateManagerS := ⟨UIState.initial⟩

/-- `UIStateManager.transition_to`: early-returns when the target equals
the current state, otherwise records the new state (widget updates and
callbacks are GUI effects outside the data model). -/
def transition_to (m : UIStateManagerS) (new_state : UIState) : UIStateManagerS :=
  if new_state = m.current_state then m else ⟨new_state⟩

/-- `UIStateManager.can_load_dicom`. -/
def can_load_dicom (m : UIStateManagerS) : Bool :=
  decide (m.current_state ∉ [UIState.segmenting, UIState.refining, UIState.saving])

/-- `UIStateManager.can_segment`. -/
def can_segment (m : UIStateManagerS) : Bool :=
  decide (m.current_state ∈ [UIState.roi_defined, UIState.mask_ready])

/-- `UIStateManager.can_refine`. -/
def can_refine (m : UIStateManagerS) : Bool :=
  decide (m.current_state = UIState.mask_ready)

/-- `UIStateManager.can_save`. -/
def can_save (m : UIStateManagerS) : Bool :=
  decide (m.current_state = UIState.mask_ready)

/-- Parameter dictionary that disables stages 1, 2 and 4. -/
def params_off : RefineParams := ⟨-1000, -300, 0, 1, false⟩

/-- Concrete empty mask of shape `(1, 1, 2)`. -/
def mask_empty : Mask := ⟨(1, 1, 2), ∅⟩

/-- Concrete volume of shape `(1, 1, 3)` (differs from `mask_empty`). -/
def vol_small : Volume := ⟨(1, 1, 3), fun _ => 0⟩

/-- Concrete volume of shape `(1, 1, 2)` (matches `mask_empty`). -/
def vol_match : Volume := ⟨(1, 1, 2), fun _ => 0⟩

/-- Concrete empty mask of shape `(1, 5, 5)`. -/
def mask_bcast : Mask := ⟨(1, 5, 5), ∅⟩

/-- Concrete volume of shape `(4, 5, 5)`: its shape differs from
`mask_bcast`'s but is broadcast-compatible with it. -/
def vol_bcast : Volume := ⟨(4, 5, 5), fun _ => 0⟩

/-- Concrete mask with two 6-connected components of sizes 950 and 10. -/
def mask_two_950_10 : Mask := ⟨(1, 1, 1000), seg 0 950 ∪ seg 951 10⟩

/-- Concrete mask with two 6-connected components of sizes 950 and 9. -/
def mask_two_950_9 : Mask := ⟨(1, 1, 1000), seg 0 950 ∪ seg 951 9⟩

/-- Concrete mask with one component of 2000 voxels. -/
def mask_line_2000 : Mask := ⟨(1, 1, 2048), seg 0 2000⟩

/-- Concrete volume matching `mask_line_2000`. -/
def vol_2048 : Volume := ⟨(1, 1, 2048), fun _ => 0⟩

/-- A one-array heap: the caller's mask lives at address 0. -/
def heap_one : Heap := ⟨fun _ => mask_empty, 1⟩

/-- A concrete heap-level pipeline run on the caller's array at address 0. -/
def frame_run : Except RefineErr (Heap × ℕ × RefineStats) :=
  refine_mask_ref idOps heap_one 0 vol_match (1, 1, 1) params_off

/-- The frame condition observed on the result of a heap-level run: the
caller's array at address 0 is untouched and the returned mask is a
fresh address. -/
def frame_preserved (h : Heap) (r : Except RefineErr (Heap × ℕ × RefineStats)) : Prop :=
  match r with
  | .error _ => False
  | .ok s => s.1.mem 0 = h.mem 0 ∧ h.next ≤ s.2.1

/-- Stored ROIs whose rectangles are inside the x/y bounds but whose
slice index 5 lies beyond a depth of 3. -/
def roi_mgr_out : ROIManagerS :=
  set_roi2 (set_roi1 roi_manager_init 5 0 10 0 10) 5 0 10 0 10

/-- Parameter dictionary with dilation enabled. -/
def params_dil : RefineParams := ⟨-1000, -300, 2, 1, false⟩

/-- A concrete all-stages-off run on the one-component 2000-voxel mask. -/
def run_2000 : Except RefineErr (Mask × RefineStats) :=
  refine_mask idOps mask_line_2000 vol_2048 (1, 1, 1) params_off

/-- A concrete all-stages-off run on the empty mask. -/
def run_empty : Except RefineErr (Mask × RefineStats) :=
  refine_mask idOps mask_empty vol_match (1, 1, 1) params_off

/-- Evaluation of a predicate on the statistics of a successful run. -/
def stats_prop (r : Except RefineErr (Mask × RefineStats)) (f : RefineStats → Prop) : Prop :=
  match r with
  | .error _ => False
  | .ok t => f t.2

theorem adjacentB_symm (p q : Pt) : adjacentB p q = adjacentB q p := by
  unfold adjacentB
  rw [decide_eq_decide]
  omega

theorem subset_expand (fg s : Finset Pt) : s ⊆ expand fg s :=
  Finset.subset_union_left

theorem expand_mono (fg : Finset Pt) {s t : Finset Pt} (h : s ⊆ t) :
    expand fg s ⊆ expand fg t := by
  refine Finset.union_subset_union h ?_
  intro q hq
  obtain ⟨hqfg, p, hp, hadj⟩ := Finset.mem_filter.mp hq
  exact Finset.mem_filter.mpr ⟨hqfg, p, h hp, hadj⟩

theorem expand_subset_union (fg s : Finset Pt) : expand fg s ⊆ s ∪ fg :=
  Finset.union_subset_union (le_refl s) (Finset.filter_subset _ fg)

theorem iterate_expand_succ_subset (fg s : Finset Pt) (n : ℕ) :
    (expand fg)^[n] s ⊆ (expand fg)^[n + 1] s := by
  rw [Function.iterate_succ_apply']
  exact subset_expand fg _

theorem iterate_expand_start_subset (fg s : Finset Pt) (n : ℕ) :
    s ⊆ (expand fg)^[n] s := by
  induction n with
  | zero => simp
  | succ k ih => exact ih.trans (iterate_expand_succ_subset fg s k)

theorem iterate_expand_subset_union (fg s : Finset Pt) (n : ℕ) :
    (expand fg)^[n] s ⊆ s ∪ fg := by
  induction n with
  | zero => simp
  | succ k ih =>
    rw [Function.iterate_succ_apply']
    exact (expand_subset_union fg _).trans (Finset.union_subset ih Finset.subset_union_right)

theorem expand_iterate_grow (fg : Finset Pt) (p : Pt) (n : ℕ) :
    expand fg ((expand fg)^[n] {p}) = (expand fg)^[n] {p} ∨
      n ≤ (((expand fg)^[n] {p}) ∩ fg).card := by
  induction n with
  | zero => exact Or.inr (Nat.zero_le _)
  | succ k ih =>
    rcases ih with hfix | hcard
    · left
      rw [Function.iterate_succ_apply', hfix, hfix]
    · by_cases hfix : expand fg ((expand fg)^[k] {p}) = (expand fg)^[k] {p}
      · left
        rw [Function.iterate_succ_apply', hfix, hfix]
      · right
        rw [Function.iterate_succ_apply']
        set s := (expand fg)^[k] {p} with hs
        have hsub : s ⊆ expand fg s := subset_expand fg s
        have hss : s ⊂ expand fg s := Finset.ssubset_iff_of_subset hsub |>.mpr ?_
        · obtain ⟨x, hxe, hxs⟩ := Finset.exists_of_ssubset hss
          have hxfg : x ∈ fg := by
            have := (Finset.mem_union.mp hxe)
            rcases this with h | h
            · exact absurd h hxs
            · exact (Finset.mem_filter.mp h).1
          have hsubi : s ∩ fg ⊆ (expand fg s) ∩ fg :=
            Finset.inter_subset_inter hsub (le_refl fg)
          have hssi : s ∩ fg ⊂ (expand fg s) ∩ fg := by
            refine (Finset.ssubset_iff_of_subset hsubi).mpr ?_
            exact ⟨x, Finset.mem_inter.mpr ⟨hxe, hxfg⟩,
              fun hx => hxs (Finset.mem_inter.mp hx).1⟩
          have := Finset.card_lt_card hssi
          omega
        · by_contra hall
          push_neg at hall
          exact hfix (le_antisymm hall hsub)

theorem expand_reachSet_fixed (fg : Finset Pt) (p : Pt) :
    expand fg (reachSet fg p) = reachSet fg p := by
  rcases expand_iterate_grow fg p fg.card with hfix | hcard
  · exact hfix
  · have hsub : ((expand fg)^[fg.card] {p}) ∩ fg ⊆ fg := Finset.inter_subset_right
    have : ((expand fg)^[fg.card] {p}) ∩ fg = fg :=
      Finset.eq_of_subset_of_card_le hsub (by omega)
    have hfg : fg ⊆ (expand fg)^[fg.card] {p} := by
      intro x hx
      have hx2 : x ∈ ((expand fg)^[fg.card] {p}) ∩ fg := by
        rw [this]
        exact hx
      exact (Finset.mem_inter.mp hx2).1
    unfold reachSet
    refine le_antisymm ?_ (subset_expand fg _)
    exact (expand_subset_union fg _).trans (Finset.union_subset (le_refl _) hfg)

theorem mem_reachSet {fg : Finset Pt} {p q : Pt} :
    q ∈ reachSet fg p ↔ reaches fg p q := by
  constructor
  · suffices h : ∀ n q, q ∈ (expand fg)^[n] {p} → reaches fg p q by
      exact h fg.card q
    intro n
    induction n with
    | zero =>
      intro q hq
      simp only [Function.iterate_zero, id, Finset.mem_singleton] at hq
      exact hq ▸ Relation.ReflTransGen.refl
    | succ k ih =>
      intro q hq
      rw [Function.iterate_succ_apply'] at hq
      rcases Finset.mem_union.mp hq with h | h
      · exact ih q h
      · obtain ⟨hqfg, r, hr, hadj⟩ := Finset.mem_filter.mp h
        exact Relation.ReflTransGen.tail (ih r hr) ⟨hqfg, hadj⟩
  · intro h
    induction h with
    | refl => exact iterate_expand_start_subset fg {p} fg.card (Finset.mem_singleton_self p)
    | tail hab hbc ih =>
      rename_i b c
      have : c ∈ expand fg (reachSet fg p) := by
        refine Finset.mem_union_right _ (Finset.mem_filter.mpr ⟨hbc.1, b, ih, hbc.2⟩)
      exact (expand_reachSet_fixed fg p) ▸ this

theorem reaches_mem {fg : Finset Pt} {p q : Pt} (hp : p ∈ fg)
    (h : reaches fg p q) : q ∈ fg := by
  rcases Relation.ReflTransGen.cases_tail h with h | ⟨c, _, hstep⟩
  · exact h ▸ hp
  · exact hstep.1

theorem reaches_symm {fg : Finset Pt} {p q : Pt} (hp : p ∈ fg)
    (h : reaches fg p q) : reaches fg q p := by
  induction h with
  | refl => exact Relation.ReflTransGen.refl
  | tail hab hbc ih =>
    rename_i b c
    have hbfg : b ∈ fg := reaches_mem hp hab
    exact Relation.ReflTransGen.head ⟨hbfg, (adjacentB_symm b c) ▸ hbc.2⟩ ih

theorem mem_own_reachSet (fg : Finset Pt) (p : Pt) : p ∈ reachSet fg p :=
  mem_reachSet.mpr Relation.ReflTransGen.refl

theorem reachSet_eq_of_reaches {fg : Finset Pt} {p q : Pt} (hp : p ∈ fg)
    (h : reaches fg p q) : reachSet fg p = reachSet fg q := by
  have hq : q ∈ fg := reaches_mem hp h
  ext r
  rw [mem_reachSet, mem_reachSet]
  constructor
  · intro hr
    exact Relation.ReflTransGen.trans (reaches_symm hp h) hr
  · intro hr
    exact Relation.ReflTransGen.trans h hr

theorem mem_componentsOf {fg c : Finset Pt} :
    c ∈ componentsOf fg ↔ ∃ p ∈ fg, reachSet fg p = c := by
  unfold componentsOf
  simp [Finset.mem_image]

theorem component_subset {fg c : Finset Pt} (hc : c ∈ componentsOf fg) : c ⊆ fg := by
  obtain ⟨p, hp, hpc⟩ := mem_componentsOf.mp hc
  intro q hq
  exact reaches_mem hp (mem_reachSet.mp (hpc ▸ hq))

theorem component_nonempty {fg c : Finset Pt} (hc : c ∈ componentsOf fg) :
    c.Nonempty := by
  obtain ⟨p, hp, hpc⟩ := mem_componentsOf.mp hc
  exact ⟨p, hpc ▸ mem_own_reachSet fg p⟩

theorem component_closed {fg c : Finset Pt} (hc : c ∈ componentsOf fg)
    {p q : Pt} (hp : p ∈ c) (hq : q ∈ fg) (hadj : adjacentB p q = true) :
    q ∈ c := by
  obtain ⟨r, hr, hrc⟩ := mem_componentsOf.mp hc
  subst hrc
  exact mem_reachSet.mpr (Relation.ReflTransGen.tail (mem_reachSet.mp hp) ⟨hq, hadj⟩)

theorem component_eq_reachSet {fg c : Finset Pt} (hc : c ∈ componentsOf fg)
    {p : Pt} (hp : p ∈ c) : c = reachSet fg p := by
  obtain ⟨r, hr, hrc⟩ := mem_componentsOf.mp hc
  subst hrc
  exact reachSet_eq_of_reaches hr (mem_reachSet.mp hp)

theorem components_disjoint {fg c₁ c₂ : Finset Pt} (h₁ : c₁ ∈ componentsOf fg)
    (h₂ : c₂ ∈ componentsOf fg) {x : Pt} (hx₁ : x ∈ c₁) (hx₂ : x ∈ c₂) :
    c₁ = c₂ := by
  rw [component_eq_reachSet h₁ hx₁, component_eq_reachSet h₂ hx₂]

theorem biUnion_componentsOf (fg : Finset Pt) :
    (componentsOf fg).biUnion id = fg := by
  ext p
  simp only [Finset.mem_biUnion, id]
  constructor
  · rintro ⟨c, hc, hp⟩
    exact component_subset hc hp
  · intro hp
    exact ⟨reachSet fg p, mem_componentsOf.mpr ⟨p, hp, rfl⟩, mem_own_reachSet fg p⟩

theorem reaches_in_closed {fg : Finset Pt} {A : Finset Pt}
    (hA : ∀ x ∈ A, ∀ q ∈ fg, adjacentB x q = true → q ∈ A)
    {p q : Pt} (hp : p ∈ A) (h : reaches fg p q) : q ∈ A := by
  induction h with
  | refl => exact hp
  | tail hab hbc ih => exact hA _ ih _ hbc.1 hbc.2

theorem reaches_restrict {fg fgs : Finset Pt} {c : Finset Pt}
    (hc : c ∈ componentsOf fg) (hcs : c ⊆ fgs)
    {p q : Pt} (hp : p ∈ c) (h : reaches fg p q) :
    q ∈ c ∧ reaches fgs p q := by
  induction h with
  | refl => exact ⟨hp, Relation.ReflTransGen.refl⟩
  | tail hab hbc ih =>
    have hbcmem := component_closed hc ih.1 hbc.1 hbc.2
    exact ⟨hbcmem, Relation.ReflTransGen.tail ih.2 ⟨hcs hbcmem, hbc.2⟩⟩

theorem reachSet_restrict {fg fgs : Finset Pt} (hsub : fgs ⊆ fg)
    {c : Finset Pt} (hc : c ∈ componentsOf fg) (hcs : c ⊆ fgs)
    {p : Pt} (hp : p ∈ c) : reachSet fgs p = c := by
  have hceq : c = reachSet fg p := component_eq_reachSet hc hp
  ext q
  rw [mem_reachSet]
  constructor
  · intro h
    have : reaches fg p q :=
      Relation.ReflTransGen.mono (fun a b hab => ⟨hsub hab.1, hab.2⟩) h
    exact hceq ▸ mem_reachSet.mpr this
  · intro hq
    exact (reaches_restrict hc hcs hp (mem_reachSet.mp (hceq ▸ hq))).2

theorem componentsOf_biUnion {fg : Finset Pt} {kept : Finset (Finset Pt)}
    (hsub : kept ⊆ componentsOf fg) :
    componentsOf (kept.biUnion id) = kept := by
  have hfgs : kept.biUnion id ⊆ fg := by
    intro x hx
    obtain ⟨c, hc, hxc⟩ := Finset.mem_biUnion.mp hx
    exact component_subset (hsub hc) hxc
  ext c
  rw [mem_componentsOf]
  constructor
  · rintro ⟨p, hp, hpc⟩
    obtain ⟨c₀, hc₀, hpc₀⟩ := Finset.mem_biUnion.mp hp
    have : reachSet (kept.biUnion id) p = c₀ :=
      reachSet_restrict hfgs (hsub hc₀) (Finset.subset_biUnion_of_mem id hc₀) hpc₀
    exact (hpc ▸ this) ▸ hc₀
  · intro hc
    obtain ⟨p, hp⟩ := component_nonempty (hsub hc)
    refine ⟨p, Finset.mem_biUnion.mpr ⟨c, hc, hp⟩, ?_⟩
    exact reachSet_restrict hfgs (hsub hc) (Finset.subset_biUnion_of_mem id hc) hp


theorem componentsOf_card_zero_iff {fg : Finset Pt} :
    (componentsOf fg).card = 0 ↔ fg = ∅ := by
  constructor
  · intro h
    have h2 : componentsOf fg = ∅ := Finset.card_eq_zero.mp h
    have h3 := biUnion_componentsOf fg
    rw [h2] at h3
    simpa using h3.symm
  · intro h
    subst h
    simp [componentsOf]

theorem mem_keptComps {comps : Finset (Finset Pt)} {c : Finset Pt} :
    c ∈ keptComps comps ↔
      c ∈ comps ∧ (c.card : ℚ) > (maxSizeOf comps : ℚ) * (1 / 100) :=
  Finset.mem_filter

theorem exists_max_component {fg : Finset Pt} (h : fg.Nonempty) :
    ∃ c ∈ componentsOf fg, c.card = maxSizeOf (componentsOf fg) := by
  have hne : (componentsOf fg).Nonempty := by
    obtain ⟨p, hp⟩ := h
    exact ⟨reachSet fg p, mem_componentsOf.mpr ⟨p, hp, rfl⟩⟩
  obtain ⟨c, hc, hceq⟩ := Finset.exists_mem_eq_sup _ hne Finset.card
  exact ⟨c, hc, hceq.symm⟩

theorem max_mem_keptComps {fg : Finset Pt} (h : fg.Nonempty) :
    ∃ c ∈ keptComps (componentsOf fg), c.card = maxSizeOf (componentsOf fg) := by
  obtain ⟨c, hc, hcard⟩ := exists_max_component h
  have hpos : 0 < c.card := Finset.card_pos.mpr (component_nonempty hc)
  refine ⟨c, mem_keptComps.mpr ⟨hc, ?_⟩, hcard⟩
  have hq : (0 : ℚ) < (c.card : ℚ) := by exact_mod_cast hpos
  rw [← hcard]
  linarith

theorem maxSizeOf_keptComps {fg : Finset Pt} (h : fg.Nonempty) :
    maxSizeOf (keptComps (componentsOf fg)) = maxSizeOf (componentsOf fg) := by
  apply le_antisymm
  · exact Finset.sup_mono (Finset.filter_subset _ _)
  · obtain ⟨c, hc, hcard⟩ := max_mem_keptComps h
    calc maxSizeOf (componentsOf fg) = c.card := hcard.symm
      _ ≤ maxSizeOf (keptComps (componentsOf fg)) := Finset.le_sup hc

theorem keptComps_stable {fg : Finset Pt} (h : fg.Nonempty) :
    keptComps (componentsOf ((keptComps (componentsOf fg)).biUnion id)) =
      keptComps (componentsOf fg) := by
  rw [componentsOf_biUnion
    (show keptComps (componentsOf fg) ⊆ componentsOf fg from Finset.filter_subset _ _)]
  ext c
  constructor
  · intro hc
    exact (mem_keptComps.mp hc).1
  · intro hc
    refine mem_keptComps.mpr ⟨hc, ?_⟩
    rw [maxSizeOf_keptComps h]
    exact (mem_keptComps.mp hc).2

theorem remove_small_components_of_empty {m : Mask}
    (h : (componentsOf m.fg).card = 0) :
    remove_small_components m =
      (m, [("voxels_before", (m.fg.card : ℤ)), ("voxels_after", 0),
           ("components_removed", 0)]) := by
  simp only [remove_small_components]
  rw [if_pos h]

theorem remove_small_components_of_pos {m : Mask}
    (h : ¬ (componentsOf m.fg).card = 0) :
    remove_small_components m =
      (⟨m.shape, (keptComps (componentsOf m.fg)).biUnion id⟩,
       [("voxels_before", (m.fg.card : ℤ)),
        ("voxels_after", (((keptComps (componentsOf m.fg)).biUnion id).card : ℤ)),
        ("voxels_removed",
          (m.fg.card : ℤ) - (((keptComps (componentsOf m.fg)).biUnion id).card : ℤ)),
        ("components_total", ((componentsOf m.fg).card : ℤ)),
        ("components_kept", ((keptComps (componentsOf m.fg)).card : ℤ)),
        ("components_removed",
          ((componentsOf m.fg).card : ℤ) - ((keptComps (componentsOf m.fg)).card : ℤ))]) := by
  simp only [remove_small_components]
  rw [if_neg h]

theorem remove_small_fg_subset (m : Mask) :
    (remove_small_components m).1.fg ⊆ m.fg := by
  by_cases h : (componentsOf m.fg).card = 0
  · rw [remove_small_components_of_empty h]
  · rw [remove_small_components_of_pos h]
    intro p hp
    obtain ⟨c, hc, hpc⟩ := Finset.mem_biUnion.mp hp
    exact component_subset (mem_keptComps.mp hc).1 hpc

theorem remove_small_shape (m : Mask) :
    (remove_small_components m).1.shape = m.shape := by
  by_cases h : (componentsOf m.fg).card = 0
  · rw [remove_small_components_of_empty h]
  · rw [remove_small_components_of_pos h]

theorem mem_seg {a n : ℕ} {z y x : ℕ} :
    (z, y, x) ∈ seg a n ↔ z = 0 ∧ y = 0 ∧ a ≤ x ∧ x < a + n := by
  unfold seg
  simp only [Finset.mem_image, Finset.mem_range, Prod.mk.injEq]
  constructor
  · rintro ⟨i, hi, h1, h2, h3⟩
    omega
  · rintro ⟨rfl, rfl, h3, h4⟩
    exact ⟨x - a, by omega, rfl, rfl, by omega⟩

theorem card_seg (a n : ℕ) : (seg a n).card = n := by
  unfold seg
  have hinj : Function.Injective (fun i : ℕ => ((0, 0, a + i) : Pt)) := by
    intro i j h
    simp only [Prod.mk.injEq] at h
    omega
  rw [Finset.card_image_of_injective _ hinj, Finset.card_range]

theorem reaches_seg_right {fg : Finset Pt} {a n : ℕ} (hsub : seg a n ⊆ fg)
    {x : ℕ} (hx : a ≤ x) (d : ℕ) (hd : x + d < a + n) :
    reaches fg (0, 0, x) (0, 0, x + d) := by
  induction d with
  | zero => exact Relation.ReflTransGen.refl
  | succ k ih =>
    have hk : x + k < a + n := by omega
    refine Relation.ReflTransGen.tail (ih hk) ?_
    refine ⟨hsub (mem_seg.mpr ⟨rfl, rfl, by omega, by omega⟩), ?_⟩
    unfold adjacentB
    rw [decide_eq_true_eq]
    exact Or.inl ⟨rfl, rfl, Or.inl rfl⟩

theorem seg_reaches {fg : Finset Pt} {a n : ℕ} (hsub : seg a n ⊆ fg)
    {p q : Pt} (hp : p ∈ seg a n) (hq : q ∈ seg a n) : reaches fg p q := by
  obtain ⟨pz, py, px⟩ := p
  obtain ⟨qz, qy, qx⟩ := q
  obtain ⟨hp1, hp2, hp3, hp4⟩ := mem_seg.mp hp
  obtain ⟨hq1, hq2, hq3, hq4⟩ := mem_seg.mp hq
  subst hp1
  subst hp2
  subst hq1
  subst hq2
  rcases le_total px qx with h | h
  · have h1 := reaches_seg_right hsub hp3 (qx - px) (by omega)
    rwa [show px + (qx - px) = qx by omega] at h1
  · have h1 := reaches_seg_right hsub hq3 (px - qx) (by omega)
    rw [show qx + (px - qx) = px by omega] at h1
    exact reaches_symm (hsub hq) h1

theorem seg_closed_union_left {a n c m : ℕ} (hgap : a + n < c) :
    ∀ x ∈ seg a n, ∀ q ∈ seg a n ∪ seg c m, adjacentB x q = true → q ∈ seg a n := by
  intro x hx q hq hadj
  rcases Finset.mem_union.mp hq with h | h
  · exact h
  · exfalso
    obtain ⟨xz, xy, xx⟩ := x
    obtain ⟨qz, qy, qx⟩ := q
    obtain ⟨h1, h2, h3, h4⟩ := mem_seg.mp hx
    obtain ⟨g1, g2, g3, g4⟩ := mem_seg.mp h
    simp only [adjacentB, decide_eq_true_eq] at hadj
    omega

theorem seg_closed_union_right {a n c m : ℕ} (hgap : a + n < c) :
    ∀ x ∈ seg c m, ∀ q ∈ seg a n ∪ seg c m, adjacentB x q = true → q ∈ seg c m := by
  intro x hx q hq hadj
  rcases Finset.mem_union.mp hq with h | h
  · exfalso
    obtain ⟨xz, xy, xx⟩ := x
    obtain ⟨qz, qy, qx⟩ := q
    obtain ⟨h1, h2, h3, h4⟩ := mem_seg.mp hx
    obtain ⟨g1, g2, g3, g4⟩ := mem_seg.mp h
    simp only [adjacentB, decide_eq_true_eq] at hadj
    omega
  · exact h

theorem reachSet_two_seg_left {a n c m : ℕ} (hgap : a + n < c) {p : Pt}
    (hp : p ∈ seg a n) : reachSet (seg a n ∪ seg c m) p = seg a n := by
  ext q
  rw [mem_reachSet]
  constructor
  · intro h
    exact reaches_in_closed (seg_closed_union_left hgap) hp h
  · intro hq
    exact seg_reaches Finset.subset_union_left hp hq

theorem reachSet_two_seg_right {a n c m : ℕ} (hgap : a + n < c) {p : Pt}
    (hp : p ∈ seg c m) : reachSet (seg a n ∪ seg c m) p = seg c m := by
  ext q
  rw [mem_reachSet]
  constructor
  · intro h
    exact reaches_in_closed (seg_closed_union_right hgap) hp h
  · intro hq
    exact seg_reaches Finset.subset_union_right hp hq

theorem componentsOf_two_seg {a n c m : ℕ} (hn : 0 < n) (hm : 0 < m)
    (hgap : a + n < c) :
    componentsOf (seg a n ∪ seg c m) = {seg a n, seg c m} := by
  ext comp
  rw [mem_componentsOf]
  constructor
  · rintro ⟨p, hp, rfl⟩
    rcases Finset.mem_union.mp hp with h | h
    · rw [reachSet_two_seg_left hgap h]
      exact Finset.mem_insert_self _ _
    · rw [reachSet_two_seg_right hgap h]
      exact Finset.mem_insert_of_mem (Finset.mem_singleton_self _)
  · intro hcomp
    rcases Finset.mem_insert.mp hcomp with rfl | h
    · have hpa : ((0, 0, a) : Pt) ∈ seg a n := mem_seg.mpr ⟨rfl, rfl, le_refl a, by omega⟩
      exact ⟨(0, 0, a), Finset.mem_union_left _ hpa, reachSet_two_seg_left hgap hpa⟩
    · rw [Finset.mem_singleton] at h
      subst h
      have hpc : ((0, 0, c) : Pt) ∈ seg c m := mem_seg.mpr ⟨rfl, rfl, le_refl c, by omega⟩
      exact ⟨(0, 0, c), Finset.mem_union_right _ hpc, reachSet_two_seg_right hgap hpc⟩

theorem seg_closed_self {a n : ℕ} :
    ∀ x ∈ seg a n, ∀ q ∈ seg a n, adjacentB x q = true → q ∈ seg a n :=
  fun _ _ _ hq _ => hq

theorem reachSet_one_seg {a n : ℕ} {p : Pt} (hp : p ∈ seg a n) :
    reachSet (seg a n) p = seg a n := by
  ext q
  rw [mem_reachSet]
  constructor
  · intro h
    exact reaches_in_closed seg_closed_self hp h
  · intro hq
    exact seg_reaches (le_refl _) hp hq

theorem componentsOf_one_seg {a n : ℕ} (hn : 0 < n) :
    componentsOf (seg a n) = {seg a n} := by
  ext comp
  rw [mem_componentsOf]
  constructor
  · rintro ⟨p, hp, rfl⟩
    rw [reachSet_one_seg hp]
    exact Finset.mem_singleton_self _
  · intro h
    rw [Finset.mem_singleton] at h
    subst h
    have hpa : ((0, 0, a) : Pt) ∈ seg a n := mem_seg.mpr ⟨rfl, rfl, le_refl a, by omega⟩
    exact ⟨(0, 0, a), hpa, reachSet_one_seg hpa⟩

theorem seg_disjoint {a n c m : ℕ} (h : a + n ≤ c) :
    Disjoint (seg a n) (seg c m) := by
  rw [Finset.disjoint_left]
  intro p hp hq
  obtain ⟨z, y, x⟩ := p
  obtain ⟨h1, h2, h3, h4⟩ := mem_seg.mp hp
  obtain ⟨g1, g2, g3, g4⟩ := mem_seg.mp hq
  omega

theorem halloc_mem_lt {h : Heap} {v : Mask} {b : ℕ} (hb : b < h.next) :
    (halloc h v).1.mem b = h.mem b := by
  show (if b = h.next then v else h.mem b) = h.mem b
  rw [if_neg (by omega)]

theorem halloc_next (h : Heap) (v : Mask) : (halloc h v).1.next = h.next + 1 := rfl

theorem halloc_addr (h : Heap) (v : Mask) : (halloc h v).2 = h.next := rfl

theorem hwrite_mem_ne {h : Heap} {a b : ℕ} {v : Mask} (hne : b ≠ a) :
    (hwrite h a v).mem b = h.mem b := by
  show (if b = a then v else h.mem b) = h.mem b
  rw [if_neg hne]

theorem hwrite_next (h : Heap) (a : ℕ) (v : Mask) : (hwrite h a v).next = h.next := rfl

theorem fill_fold_ref_frame (ops : ScipyOps) (a : ℕ) (l : List ℕ) :
    ∀ (h : Heap) (k : ℕ),
      (∀ b, b ≠ a →
        ((l.foldl (fun acc z =>
            if (slice_fg (acc.1.mem a) z).Nonempty
            then (hwrite acc.1 a (fill_slice ops (acc.1.mem a) z), acc.2 + 1)
            else acc) (h, k)).1).mem b = h.mem b) ∧
      ((l.foldl (fun acc z =>
          if (slice_fg (acc.1.mem a) z).Nonempty
          then (hwrite acc.1 a (fill_slice ops (acc.1.mem a) z), acc.2 + 1)
          else acc) (h, k)).1).next = h.next := by
  induction l with
  | nil => exact fun h k => ⟨fun b _ => rfl, rfl⟩
  | cons zz t ih =>
    intro h k
    simp only [List.foldl_cons]
    by_cases hz : (slice_fg (h.mem a) zz).Nonempty
    · rw [if_pos hz]
      obtain ⟨ih1, ih2⟩ := ih (hwrite h a (fill_slice ops (h.mem a) zz)) (k + 1)
      refine ⟨fun b hb => ?_, ?_⟩
      · rw [ih1 b hb, hwrite_mem_ne hb]
      · rw [ih2, hwrite_next]
    · rw [if_neg hz]
      exact ih h k

theorem fill_holes_2d_ref_frame (ops : ScipyOps) (h : Heap) (a : ℕ) :
    (∀ b, b ≠ a → (fill_holes_2d_ref ops h a).1.mem b = h.mem b) ∧
    (fill_holes_2d_ref ops h a).1.next = h.next := by
  simp only [fill_holes_2d_ref]
  exact fill_fold_ref_frame ops a (List.range (h.mem a).shape.1) h 0

theorem ref_closing_frame (ops : ScipyOps) (params : RefineParams) (h : Heap)
    (hp : Heap) (aa : ℕ)
    (m1 : ∀ b, b < h.next → hp.mem b = h.mem b) (m2 : h.next ≤ hp.next)
    (m3 : h.next ≤ aa) (m4 : aa < hp.next) :
    (∀ b, b < h.next → (ref_closing ops params (hp, aa)).1.mem b = h.mem b) ∧
    h.next ≤ (ref_closing ops params (hp, aa)).1.next ∧
    h.next ≤ (ref_closing ops params (hp, aa)).2.1 ∧
    (ref_closing ops params (hp, aa)).2.1 < (ref_closing ops params (hp, aa)).1.next := by
  unfold ref_closing
  by_cases hc : params.closing_size > 1
  · rw [if_pos hc]
    simp only []
    refine ⟨fun b hb => ?_, ?_, ?_, ?_⟩
    · rw [halloc_mem_lt (by omega)]
      exact m1 b hb
    · rw [halloc_next]
      omega
    · rw [halloc_addr]
      omega
    · rw [halloc_addr, halloc_next]
      omega
  · rw [if_neg hc]
    exact ⟨m1, m2, m3, m4⟩

theorem ref_noise_frame (h : Heap) (hp : Heap) (aa : ℕ)
    (m1 : ∀ b, b < h.next → hp.mem b = h.mem b) (m2 : h.next ≤ hp.next)
    (m3 : h.next ≤ aa) (m4 : aa < hp.next) :
    (∀ b, b < h.next → (ref_noise (hp, aa)).1.mem b = h.mem b) ∧
    h.next ≤ (ref_noise (hp, aa)).1.next ∧
    h.next ≤ (ref_noise (hp, aa)).2 ∧
    (ref_noise (hp, aa)).2 < (ref_noise (hp, aa)).1.next := by
  unfold ref_noise
  by_cases hc : (componentsOf (hp.mem aa).fg).card = 0
  · rw [if_pos hc]
    exact ⟨m1, m2, m3, m4⟩
  · rw [if_neg hc]
    simp only []
    refine ⟨fun b hb => ?_, ?_, ?_, ?_⟩
    · rw [halloc_mem_lt (by omega)]
      exact m1 b hb
    · rw [halloc_next]
      omega
    · rw [halloc_addr]
      omega
    · rw [halloc_addr, halloc_next]
      omega

theorem ref_fill_frame (ops : ScipyOps) (params : RefineParams) (h : Heap)
    (hp : Heap) (aa : ℕ)
    (m1 : ∀ b, b < h.next → hp.mem b = h.mem b) (m2 : h.next ≤ hp.next)
    (m3 : h.next ≤ aa) (m4 : aa < hp.next) :
    (∀ b, b < h.next → (ref_fill ops params (hp, aa)).1.mem b = h.mem b) ∧
    h.next ≤ (ref_fill ops params (hp, aa)).1.next ∧
    h.next ≤ (ref_fill ops params (hp, aa)).2.1 ∧
    (ref_fill ops params (hp, aa)).2.1 < (ref_fill ops params (hp, aa)).1.next := by
  unfold ref_fill
  by_cases hc : params.fill_holes
  · rw [if_pos hc]
    simp only []
    obtain ⟨f1, f2⟩ := fill_holes_2d_ref_frame ops hp aa
    refine ⟨fun b hb => ?_, ?_, ?_, ?_⟩
    · rw [f1 b (by omega)]
      exact m1 b hb
    · rw [f2]
      omega
    · exact m3
    · rw [f2]
      omega
  · rw [if_neg hc]
    exact ⟨m1, m2, m3, m4⟩

/-- C8: `refine_mask` never mutates the caller's input mask array: on the
heap model, a successful run leaves every previously allocated address
unchanged (in particular the input array at `base_addr`), and the
returned refined mask lives at a fresh address.  The entry copy
`mask = base_mask.copy()` confines all later rebinding and in-place
mutation (the slice-wise hole filling) to internal arrays. -/
theorem claim_C8_no_input_mutation (ops : ScipyOps) (h : Heap) (base_addr : ℕ)
    (v : Volume) (sp : ℚ × ℚ × ℚ) (p : RefineParams) (_hb : base_addr < h.next) :
    ∀ h2 a2 s, refine_mask_ref ops h base_addr v sp p = Except.ok (h2, a2, s) →
      (∀ b, b < h.next → h2.mem b = h.mem b) ∧ h.next ≤ a2 := by
  intro h2 a2 s heq
  simp only [refine_mask_ref] at heq
  have hc0m : ∀ b, b < h.next → (halloc h (h.mem base_addr)).1.mem b = h.mem b :=
    fun b hb2 => halloc_mem_lt hb2
  have hc0n : h.next ≤ (halloc h (h.mem base_addr)).1.next := by
    rw [halloc_next]
    omega
  have hc0a : h.next ≤ (halloc h (h.mem base_addr)).2 := le_of_eq (halloc_addr h _).symm
  have hc0lt : (halloc h (h.mem base_addr)).2 < (halloc h (h.mem base_addr)).1.next := by
    rw [halloc_addr, halloc_next]
    omega
  by_cases hdil : p.dilation_iter > 0
  · rw [if_pos hdil] at heq
    cases happ : apply_hu_dilation ops ((halloc h (h.mem base_addr)).1.mem
        (halloc h (h.mem base_addr)).2) v p.hu_min p.hu_max p.dilation_iter with
    | error e =>
      rw [happ] at heq
      simp at heq
    | ok r =>
      rw [happ] at heq
      simp only [] at heq
      have hm1 : ∀ b, b < h.next →
          (halloc (halloc h (h.mem base_addr)).1 r.1).1.mem b = h.mem b := by
        intro b hb2
        rw [halloc_mem_lt (by omega)]
        exact hc0m b hb2
      have hm2 : h.next ≤ (halloc (halloc h (h.mem base_addr)).1 r.1).1.next := by
        rw [halloc_next]
        omega
      have hm3 : h.next ≤ (halloc (halloc h (h.mem base_addr)).1 r.1).2 := by
        rw [halloc_addr]
        omega
      have hm4 : (halloc (halloc h (h.mem base_addr)).1 r.1).2 <
          (halloc (halloc h (h.mem base_addr)).1 r.1).1.next := by
        simp only [halloc_addr, halloc_next]
        omega
      obtain ⟨n1, n2, n3, n4⟩ := ref_closing_frame ops p h _ _ hm1 hm2 hm3 hm4
      obtain ⟨o1, o2, o3, o4⟩ := ref_noise_frame h _ _ n1 n2 n3 n4
      obtain ⟨q1, q2, q3, q4⟩ := ref_fill_frame ops p h _ _ o1 o2 o3 o4
      simp only [Except.ok.injEq, Prod.mk.injEq] at heq
      obtain ⟨e1, e2, e3⟩ := heq
      subst e1
      subst e2
      constructor
      · intro b hb2
        rw [halloc_mem_lt (lt_of_lt_of_le hb2 q2)]
        exact q1 b hb2
      · rw [halloc_addr]
        exact q2
  · rw [if_neg hdil] at heq
    simp only [] at heq
    obtain ⟨n1, n2, n3, n4⟩ := ref_closing_frame ops p h _ _ hc0m hc0n hc0a hc0lt
    obtain ⟨o1, o2, o3, o4⟩ := ref_noise_frame h _ _ n1 n2 n3 n4
    obtain ⟨q1, q2, q3, q4⟩ := ref_fill_frame ops p h _ _ o1 o2 o3 o4
    simp only [Except.ok.injEq, Prod.mk.injEq] at heq
    obtain ⟨e1, e2, e3⟩ := heq
    subst e1
    subst e2
    constructor
    · intro b hb2
      rw [halloc_mem_lt (lt_of_lt_of_le hb2 q2)]
      exact q1 b hb2
    · rw [halloc_addr]
      exact q2

/-- Witness for C8: a concrete run on a one-array heap leaves the
caller's array at address 0 untouched and returns a fresh address. -/
theorem claim_C8_witness : frame_preserved heap_one frame_run := by
  have hok : frame_run.isOk = true := rfl
  have hmain := claim_C8_no_input_mutation idOps heap_one 0 vol_match (1, 1, 1) params_off
    (by decide)
  unfold frame_preserved
  cases hrun : frame_run with
  | error e =>
    rw [hrun] at hok
    simp [Except.toBool] at hok
  | ok t =>
    have heq : refine_mask_ref idOps heap_one 0 vol_match (1, 1, 1) params_off =
        Except.ok (t.1, t.2.1, t.2.2) := hrun
    obtain ⟨hmem, hle⟩ := hmain t.1 t.2.1 t.2.2 heq
    exact ⟨hmem 0 (by decide), hle⟩

/-- C6 counterexample: the `UIState` enum of the source contains a ninth
member `ROI2_DEFINED`, distinct from each of the eight states the claim
lists, so the state type is not the claimed closed set of eight. -/
theorem claim_C6_counterexample :
    UIState.roi2_defined ≠ UIState.initial ∧
    UIState.roi2_defined ≠ UIState.volume_loaded ∧
    UIState.roi2_defined ≠ UIState.roi1_defined ∧
    UIState.roi2_defined ≠ UIState.roi_defined ∧
    UIState.roi2_defined ≠ UIState.segmenting ∧
    UIState.roi2_defined ≠ UIState.mask_ready ∧
    UIState.roi2_defined ≠ UIState.refining ∧
    UIState.roi2_defined ≠ UIState.saving ∧
    UIState.roi2_defined ∈ ui_state_all := by
  decide

/-- C6 (amended): the `UIState` enum is the closed set of NINE states:
Initial, VolumeLoaded, Roi1Defined, Roi2Defined, RoiDefined, Segmenting,
MaskReady, Refining, Saving — i.e. the eight the claim lists plus
Roi2Defined. -/
theorem claim_C6_state_enum :
    ui_state_all.length = 9 ∧ ui_state_all.Nodup ∧ ∀ s : UIState, s ∈ ui_state_all := by
  refine ⟨rfl, by decide, fun s => ?_⟩
  cases s <;> decide

/-- C7: the capability predicates are pure functions of the gate's
current state with exactly the claimed truth sets (over all nine states),
and the scenario transitions behave as claimed: `can_segment` is false in
the initial state, true after `transition_to RoiDefined`, and
`can_load_dicom` is false after `transition_to Segmenting`. -/
theorem claim_C7_capability_predicates :
    (∀ s : UIState, can_load_dicom ⟨s⟩ = true ↔
        (s ≠ UIState.segmenting ∧ s ≠ UIState.refining ∧ s ≠ UIState.saving)) ∧
    (∀ s : UIState, can_segment ⟨s⟩ = true ↔
        (s = UIState.roi_defined ∨ s = UIState.mask_ready)) ∧
    (∀ s : UIState, can_refine ⟨s⟩ = true ↔ s = UIState.mask_ready) ∧
    (∀ s : UIState, can_save ⟨s⟩ = true ↔ s = UIState.mask_ready) ∧
    can_segment ui_manager_init = false ∧
    (∀ s : UIState, can_segment (transition_to ⟨s⟩ UIState.roi_defined) = true) ∧
    (∀ s : UIState, can_load_dicom (transition_to ⟨s⟩ UIState.segmenting) = false) := by
  refine ⟨fun s => ?_, fun s => ?_, fun s => ?_, fun s => ?_, by decide,
    fun s => ?_, fun s => ?_⟩ <;> cases s <;> decide

theorem clip_chain {lo hi d : ℤ} (hd : 0 < d) (h1 : lo ≤ d - 1) (h2 : 0 ≤ hi)
    (h3 : lo ≤ hi) :
    0 ≤ max 0 lo ∧ max 0 lo ≤ min (d - 1) hi ∧ min (d - 1) hi ≤ d - 1 :=
  ⟨le_max_left 0 lo,
   le_min (max_le (by omega) h1) (max_le h2 h3),
   min_le_left _ _⟩

/-- C1 counterexample: two stored ROIs whose rectangles are within the
x/y bounds but drawn on slice 5 of a volume of depth 3 combine to a box
with z0 = 5 > z1 = 2, violating `z0 ≤ z1` (and `z0 ≤ depth - 1`): the
clamping step does not re-normalize the order of the bounds. -/
theorem claim_C1_counterexample :
    get_combined_roi_coords roi_mgr_out (3, 20, 20) =
      Except.ok (5, 2, 0, 10, 0, 10) ∧ ¬ ((5 : ℤ) ≤ 2) := by
  exact ⟨rfl, by decide⟩

/-- C1 (amended): the combined box of `get_combined_roi_coords` satisfies
`0 ≤ z0 ≤ z1 ≤ depth-1` (and the y/x analogues) for volume shapes with
positive dimensions, for ROIs with ordered bounds (as produced by the
drawing widget), PROVIDED each axis's combined pre-clip interval meets
`[0, dim-1]` (the rectangles may still lie partly outside the volume);
without that proviso only `0 ≤ z0`, `z1 ≤ depth-1` and the y/x analogues
hold, as the counterexample shows. -/
theorem claim_C1_combined_roi_bounds (z1s y10 y11 x10 x11 z2s y20 y21 x20 x21 d h w : ℤ)
    (hd : 0 < d) (hh : 0 < h) (hw : 0 < w)
    (hy1 : y10 ≤ y11) (_hy2 : y20 ≤ y21) (hx1 : x10 ≤ x11) (_hx2 : x20 ≤ x21)
    (hzlo : min z1s z2s ≤ d - 1) (hzhi : 0 ≤ max z1s z2s)
    (hylo : min y10 y20 ≤ h - 1) (hyhi : 0 ≤ max y11 y21)
    (hxlo : min x10 x20 ≤ w - 1) (hxhi : 0 ≤ max x11 x21) :
    ∃ z0 z1 y0 y1 x0 x1 : ℤ,
      get_combined_roi_coords
        (set_roi2 (set_roi1 roi_manager_init z1s x10 x11 y10 y11) z2s x20 x21 y20 y21)
        (d, h, w) = Except.ok (z0, z1, y0, y1, x0, x1) ∧
      0 ≤ z0 ∧ z0 ≤ z1 ∧ z1 ≤ d - 1 ∧
      0 ≤ y0 ∧ y0 ≤ y1 ∧ y1 ≤ h - 1 ∧
      0 ≤ x0 ∧ x0 ≤ x1 ∧ x1 ≤ w - 1 := by
  obtain ⟨za, zb, zc⟩ := clip_chain hd hzlo hzhi
    (le_trans (min_le_left z1s z2s) (le_max_left z1s z2s))
  obtain ⟨ya, yb, yc⟩ := clip_chain hh hylo hyhi
    (le_trans (min_le_left y10 y20) (le_trans hy1 (le_max_left y11 y21)))
  obtain ⟨xa, xb, xc⟩ := clip_chain hw hxlo hxhi
    (le_trans (min_le_left x10 x20) (le_trans hx1 (le_max_left x11 x21)))
  exact ⟨_, _, _, _, _, _, rfl, za, zb, zc, ya, yb, yc, xa, xb, xc⟩

/-- Witness for C1 (amended): a concrete pair of ROIs that straddle the
volume interior produces an ordered, clipped box. -/
theorem claim_C1_witness :
    (get_combined_roi_coords
      (set_roi2 (set_roi1 roi_manager_init 0 0 10 0 10) 2 1 11 1 11)
      (3, 20, 20)).isOk = true := by
  obtain ⟨z0, z1, y0, y1, x0, x1, heq, hrest⟩ :=
    claim_C1_combined_roi_bounds 0 0 10 0 10 2 1 11 1 11 3 20 20
      (by decide) (by decide) (by decide) (by decide) (by decide) (by decide)
      (by decide) (by decide) (by decide) (by decide) (by decide) (by decide)
      (by decide)
  rw [heq]
  rfl

/-- C2 counterexample: `refine_mask` contains no shape validation: with
`dilation_iter = 0` it returns a result although the mask shape (1,1,2)
differs from the volume shape (1,1,3). -/
theorem claim_C2_counterexample :
    mask_empty.shape ≠ vol_small.shape ∧
    (refine_mask idOps mask_empty vol_small (1, 1, 1) params_off).isOk = true := by
  exact ⟨by decide, rfl⟩

/-- C2 (amended): `refine_mask` performs no shape validation and raises
no dedicated shape-mismatch failure.  With `dilation_iter = 0` the volume
is never touched and a result is returned even when
`mask.shape ≠ volume.shape`.  With `dilation_iter > 0` (and a
shape-preserving dilation, as scipy's is) the run succeeds exactly when
the two shapes are numpy-broadcast-compatible — on each axis the sizes
agree or one of them is 1, so e.g. a (1,5,5) mask with a (4,5,5) volume
still returns a result — and fails with the stage-1 elementwise-`&`
broadcast failure otherwise. -/
theorem claim_C2_no_shape_check :
    (∀ (ops : ScipyOps) (m : Mask) (v : Volume) (sp : ℚ × ℚ × ℚ) (p : RefineParams),
        p.dilation_iter = 0 → (refine_mask ops m v sp p).isOk = true) ∧
    (∀ (ops : ScipyOps) (m : Mask) (v : Volume) (sp : ℚ × ℚ × ℚ) (p : RefineParams),
        (∀ mk n, (ops.binary_dilation mk n).shape = mk.shape) →
        0 < p.dilation_iter →
        (refine_mask ops m v sp p).isOk = (bcastShape m.shape v.shape).isSome) := by
  constructor
  · intro ops m v sp p hd
    simp only [refine_mask, hd]
    rfl
  · intro ops m v sp p hs hd
    simp only [refine_mask, apply_hu_dilation, maskAnd, if_pos hd, hs, lung_tissue_mask]
    cases hbc : bcastShape m.shape v.shape with
    | none => rfl
    | some sh => rfl

/-- Witness for C2 (amended): with dilation off the run succeeds on the
incompatible shapes (1,1,2)/(1,1,3); with dilation on, those shapes fail
while the broadcast-compatible (1,5,5)/(4,5,5) pair still succeeds. -/
theorem claim_C2_witness :
    (refine_mask idOps mask_empty vol_small (1, 1, 1) params_off).isOk = true ∧
    (refine_mask idOps mask_empty vol_small (1, 1, 1) params_dil).isOk = false ∧
    (refine_mask idOps mask_bcast vol_bcast (1, 1, 1) params_dil).isOk = true := by
  refine ⟨?_, ?_, ?_⟩
  · exact claim_C2_no_shape_check.1 idOps mask_empty vol_small (1, 1, 1) params_off rfl
  · rw [claim_C2_no_shape_check.2 idOps mask_empty vol_small (1, 1, 1) params_dil
      (fun _ _ => rfl) (by decide)]
    decide
  · rw [claim_C2_no_shape_check.2 idOps mask_bcast vol_bcast (1, 1, 1) params_dil
      (fun _ _ => rfl) (by decide)]
    decide

theorem refine_mask_all_off (ops : ScipyOps) (m : Mask) (v : Volume)
    (sp : ℚ × ℚ × ℚ) (p : RefineParams)
    (h1 : p.dilation_iter = 0) (h2 : p.closing_size = 1) (h3 : p.fill_holes = false) :
    refine_mask ops m v sp p = Except.ok ((remove_small_components m).1,
      { base_count := m.fg.card,
        steps := [("Noise Removal", (remove_small_components m).2)],
        final_count := (remove_small_components m).1.fg.card,
        improvement_percent :=
          if m.fg.card > 0 then
            ((((remove_small_components m).1.fg.card : ℚ) - (m.fg.card : ℚ)) /
              (m.fg.card : ℚ)) * 100
          else 0,
        volume_ml := ((remove_small_components m).1.fg.card : ℚ) *
          (sp.1 * sp.2.1 * sp.2.2) / 1000,
        params := p }) := by
  simp only [refine_mask, h1, h2, h3]
  simp

/-- C4: with `dilation_iter = 0`, `closing_size = 1`, `fill_holes = false`
the pipeline still executes small-component removal — the `steps` list is
exactly the one `Noise Removal` entry — and the final voxel count never
exceeds the base count. -/
theorem claim_C4_stage3_always_runs (ops : ScipyOps) (m : Mask) (v : Volume)
    (sp : ℚ × ℚ × ℚ) (p : RefineParams)
    (h1 : p.dilation_iter = 0) (h2 : p.closing_size = 1) (h3 : p.fill_holes = false) :
    ∃ m2 s, refine_mask ops m v sp p = Except.ok (m2, s) ∧
      (∃ st, s.steps = [("Noise Removal", st)]) ∧
      s.base_count = m.fg.card ∧ s.final_count = m2.fg.card ∧
      s.final_count ≤ s.base_count := by
  refine ⟨(remove_small_components m).1, _, refine_mask_all_off ops m v sp p h1 h2 h3,
    ⟨(remove_small_components m).2, rfl⟩, rfl, rfl, ?_⟩
  exact Finset.card_le_card (remove_small_fg_subset m)

/-- Witness for C4: the all-stages-off run on a concrete mask succeeds. -/
theorem claim_C4_witness :
    (refine_mask idOps mask_empty vol_match (1, 1, 1) params_off).isOk = true := by
  obtain ⟨m2, s, heq, _⟩ :=
    claim_C4_stage3_always_runs idOps mask_empty vol_match (1, 1, 1) params_off rfl rfl rfl
  rw [heq]
  rfl

theorem refine_mask_ok_stats (ops : ScipyOps) (m : Mask) (v : Volume)
    (sp : ℚ × ℚ × ℚ) (p : RefineParams) (m2 : Mask) (s : RefineStats)
    (heq : refine_mask ops m v sp p = Except.ok (m2, s)) :
    (s.base_count = 0 → s.improvement_percent = 0) ∧
    (0 < s.base_count →
      s.improvement_percent =
        ((s.final_count : ℚ) - (s.base_count : ℚ)) / (s.base_count : ℚ) * 100) ∧
    s.volume_ml = (s.final_count : ℚ) * (sp.1 * sp.2.1 * sp.2.2) / 1000 := by
  by_cases hdil : p.dilation_iter > 0
  · simp only [refine_mask, if_pos hdil] at heq
    cases happ : apply_hu_dilation ops m v p.hu_min p.hu_max p.dilation_iter with
    | error e =>
      rw [happ] at heq
      simp at heq
    | ok r =>
      rw [happ] at heq
      simp only [Except.ok.injEq, Prod.mk.injEq] at heq
      obtain ⟨hm2, hs⟩ := heq
      subst hs
      refine ⟨?_, ?_, rfl⟩
      · intro h0
        simp only [] at h0 ⊢
        rw [if_neg (by omega)]
      · intro hpos
        simp only [] at hpos ⊢
        rw [if_pos (by omega)]
  · simp only [refine_mask, if_neg hdil] at heq
    simp only [Except.ok.injEq, Prod.mk.injEq] at heq
    obtain ⟨hm2, hs⟩ := heq
    subst hs
    refine ⟨?_, ?_, rfl⟩
    · intro h0
      simp only [] at h0 ⊢
      rw [if_neg (by omega)]
    · intro hpos
      simp only [] at hpos ⊢
      rw [if_pos (by omega)]

/-- C9: the returned statistics satisfy
`improvement_percent = (final_count - base_count) / base_count * 100`
when `base_count > 0` and `improvement_percent = 0` when
`base_count = 0` (no division-by-zero failure), and
`volume_ml = final_count * sx * sy * sz / 1000`; in particular spacing
`(1,1,1)` with `final_count = 2000` gives `volume_ml = 2`. -/
theorem claim_C9_statistics_formulas :
    (∀ (ops : ScipyOps) (m : Mask) (v : Volume) (sp : ℚ × ℚ × ℚ) (p : RefineParams)
        (m2 : Mask) (s : RefineStats),
        refine_mask ops m v sp p = Except.ok (m2, s) →
        (s.base_count = 0 → s.improvement_percent = 0) ∧
        (0 < s.base_count →
          s.improvement_percent =
            ((s.final_count : ℚ) - (s.base_count : ℚ)) / (s.base_count : ℚ) * 100) ∧
        s.volume_ml = (s.final_count : ℚ) * (sp.1 * sp.2.1 * sp.2.2) / 1000) ∧
    (∀ (ops : ScipyOps) (m : Mask) (v : Volume) (p : RefineParams)
        (m2 : Mask) (s : RefineStats),
        refine_mask ops m v (1, 1, 1) p = Except.ok (m2, s) →
        s.final_count = 2000 → s.volume_ml = 2) := by
  constructor
  · exact refine_mask_ok_stats
  · intro ops m v p m2 s heq hfin
    have h3 := (refine_mask_ok_stats ops m v (1, 1, 1) p m2 s heq).2.2
    rw [h3, hfin]
    norm_num

theorem remove_small_mask_line_2000 :
    (remove_small_components mask_line_2000).1 = mask_line_2000 := by
  have hcomp : componentsOf mask_line_2000.fg = {seg 0 2000} :=
    componentsOf_one_seg (by norm_num)
  have hcard : ¬ (componentsOf mask_line_2000.fg).card = 0 := by
    rw [hcomp]
    simp
  rw [remove_small_components_of_pos hcard]
  have hkept : keptComps (componentsOf mask_line_2000.fg) = {seg 0 2000} := by
    rw [hcomp]
    apply Finset.filter_true_of_mem
    intro c hc
    rw [Finset.mem_singleton] at hc
    subst hc
    show ((seg 0 2000).card : ℚ) > (maxSizeOf {seg 0 2000} : ℚ) * (1 / 100)
    unfold maxSizeOf
    rw [Finset.sup_singleton, card_seg]
    norm_num
  rw [hkept, Finset.singleton_biUnion]
  rfl

/-- Witness for C9: the concrete 2000-voxel run has `volume_ml = 2`, and
the concrete empty run has `improvement_percent = 0`. -/
theorem claim_C9_witness :
    stats_prop run_2000 (fun s => s.volume_ml = 2) ∧
    stats_prop run_empty (fun s => s.improvement_percent = 0) := by
  have hfin : (remove_small_components mask_line_2000).1.fg.card = 2000 := by
    rw [remove_small_mask_line_2000]
    exact card_seg 0 2000
  constructor
  · show stats_prop (refine_mask idOps mask_line_2000 vol_2048 (1, 1, 1) params_off) _
    rw [refine_mask_all_off idOps mask_line_2000 vol_2048 (1, 1, 1) params_off rfl rfl rfl]
    exact claim_C9_statistics_formulas.2 idOps mask_line_2000 vol_2048 params_off _ _
      (refine_mask_all_off idOps mask_line_2000 vol_2048 (1, 1, 1) params_off rfl rfl rfl)
      hfin
  · show stats_prop (refine_mask idOps mask_empty vol_match (1, 1, 1) params_off) _
    rw [refine_mask_all_off idOps mask_empty vol_match (1, 1, 1) params_off rfl rfl rfl]
    exact (claim_C9_statistics_formulas.1 idOps mask_empty vol_match (1, 1, 1) params_off _ _
      (refine_mask_all_off idOps mask_empty vol_match (1, 1, 1) params_off rfl rfl rfl)).1 rfl

/-- C5: small-component removal is idempotent: applying
`_remove_small_components` to its own output mask yields the same mask as
applying it once.  The kept components are exactly the connected
components of the cleaned mask, the maximal size is unchanged (the
largest component always survives), so the second pass keeps everything. -/
theorem claim_C5_remove_small_idempotent (m : Mask) :
    (remove_small_components (remove_small_components m).1).1 =
      (remove_small_components m).1 := by
  by_cases h0 : (componentsOf m.fg).card = 0
  · simp only [remove_small_components_of_empty h0]
  · have hfgne : m.fg.Nonempty := by
      rw [Finset.nonempty_iff_ne_empty]
      intro hfg
      exact h0 (componentsOf_card_zero_iff.mpr hfg)
    rw [remove_small_components_of_pos h0]
    have hcomps1 : componentsOf
        ((⟨m.shape, (keptComps (componentsOf m.fg)).biUnion id⟩ : Mask).fg) =
        keptComps (componentsOf m.fg) :=
      componentsOf_biUnion
        (show keptComps (componentsOf m.fg) ⊆ componentsOf m.fg from Finset.filter_subset _ _)
    have hne2 : ¬ (componentsOf
        ((⟨m.shape, (keptComps (componentsOf m.fg)).biUnion id⟩ : Mask).fg)).card = 0 := by
      rw [hcomps1]
      obtain ⟨c, hc, _⟩ := max_mem_keptComps hfgne
      intro hz
      rw [Finset.card_eq_zero.mp hz] at hc
      exact Finset.not_mem_empty c hc
    rw [remove_small_components_of_pos hne2]
    have hfg2 : (keptComps (componentsOf
        ((⟨m.shape, (keptComps (componentsOf m.fg)).biUnion id⟩ : Mask).fg))).biUnion id =
        (keptComps (componentsOf m.fg)).biUnion id := by
      rw [show componentsOf ((⟨m.shape, (keptComps (componentsOf m.fg)).biUnion id⟩ : Mask).fg) =
          componentsOf ((keptComps (componentsOf m.fg)).biUnion id) from rfl]
      rw [keptComps_stable hfgne]
    rw [hfg2]

theorem lookup_components_removed_empty (v1 : ℤ) :
    List.lookup ("components_removed")
      [("voxels_before", v1), ("voxels_after", 0), ("components_removed", 0)] =
      some 0 := rfl

theorem lookup_components_kept (v1 v2 v3 v4 v5 v6 : ℤ) :
    List.lookup ("components_kept")
      [("voxels_before", v1), ("voxels_after", v2), ("voxels_removed", v3),
       ("components_total", v4), ("components_kept", v5), ("components_removed", v6)] =
      some v5 := rfl

theorem lookup_voxels_removed (v1 v2 v3 v4 v5 v6 : ℤ) :
    List.lookup ("voxels_removed")
      [("voxels_before", v1), ("voxels_after", v2), ("voxels_removed", v3),
       ("components_total", v4), ("components_kept", v5), ("components_removed", v6)] =
      some v3 := rfl

theorem pair_biUnion (A B : Finset Pt) :
    ({A, B} : Finset (Finset Pt)).biUnion id = A ∪ B := by
  rw [show ({A, B} : Finset (Finset Pt)) = insert A {B} from rfl]
  rw [Finset.biUnion_insert, Finset.singleton_biUnion]
  rfl

theorem maxSizeOf_pair (A B : Finset Pt) :
    maxSizeOf {A, B} = A.card ⊔ B.card := by
  unfold maxSizeOf
  rw [show ({A, B} : Finset (Finset Pt)) = insert A {B} from rfl, Finset.sup_insert,
    Finset.sup_singleton]

theorem kept_pair_both (A B : Finset Pt) (h950 : A.card = 950) (h10 : B.card = 10) :
    keptComps {A, B} = {A, B} := by
  have hmax : maxSizeOf ({A, B} : Finset (Finset Pt)) = 950 := by
    rw [maxSizeOf_pair, h950, h10]
    decide
  apply Finset.filter_true_of_mem
  intro c hc
  rcases Finset.mem_insert.mp hc with rfl | hc2
  · show (c.card : ℚ) > (maxSizeOf ({c, B} : Finset (Finset Pt)) : ℚ) * (1 / 100)
    rw [hmax, h950]
    norm_num
  · rw [Finset.mem_singleton] at hc2
    subst hc2
    show (c.card : ℚ) > (maxSizeOf ({A, c} : Finset (Finset Pt)) : ℚ) * (1 / 100)
    rw [hmax, h10]
    norm_num

theorem kept_pair_first (A B : Finset Pt) (h950 : A.card = 950) (h9 : B.card = 9) :
    keptComps {A, B} = {A} := by
  have hmax : maxSizeOf ({A, B} : Finset (Finset Pt)) = 950 := by
    rw [maxSizeOf_pair, h950, h9]
    decide
  ext c
  rw [mem_keptComps]
  constructor
  · rintro ⟨hc, hgt⟩
    rcases Finset.mem_insert.mp hc with rfl | hc2
    · exact Finset.mem_singleton_self _
    · rw [Finset.mem_singleton] at hc2
      subst hc2
      rw [hmax, h9] at hgt
      norm_num at hgt
  · intro hc
    rw [Finset.mem_singleton] at hc
    subst hc
    refine ⟨Finset.mem_insert_self _ _, ?_⟩
    rw [hmax, h950]
    norm_num

theorem two_comp_facts (m : Mask) (A B : Finset Pt)
    (hcomps : componentsOf m.fg = {A, B}) (hne : A ≠ B) :
    A ∈ componentsOf m.fg ∧ B ∈ componentsOf m.fg ∧
    ¬ (componentsOf m.fg).card = 0 ∧ m.fg = A ∪ B ∧ Disjoint A B := by
  have hA : A ∈ componentsOf m.fg := by
    rw [hcomps]
    exact Finset.mem_insert_self _ _
  have hB : B ∈ componentsOf m.fg := by
    rw [hcomps]
    exact Finset.mem_insert_of_mem (Finset.mem_singleton_self _)
  refine ⟨hA, hB, ?_, ?_, ?_⟩
  · rw [hcomps,
      Finset.card_insert_of_not_mem (by rw [Finset.mem_singleton]; exact hne)]
    simp
  · have h := biUnion_componentsOf m.fg
    rw [hcomps, pair_biUnion] at h
    exact h.symm
  · rw [Finset.disjoint_left]
    intro x hxA hxB
    exact hne (components_disjoint hA hB hxA hxB)

/-- C3: `_remove_small_components` labels the connected components, takes
`max_size` to be the largest component's voxel count, and removes exactly
the components whose size is at most `max_size * 0.01`, keeping all
others; on an entirely empty mask it returns the mask unchanged and
reports zero removed components; for a mask with exactly two components
of sizes 950 and 10 the result reports `components_kept = 2` and
`voxels_removed = 0`, while with sizes 950 and 9 it reports
`voxels_removed = 9`. -/
theorem claim_C3_small_component_removal :
    (∀ (m : Mask), ∀ c ∈ componentsOf m.fg,
        (((c.card : ℚ) ≤ (maxSizeOf (componentsOf m.fg) : ℚ) * (1 / 100)) →
          ∀ p ∈ c, p ∉ (remove_small_components m).1.fg) ∧
        (((c.card : ℚ) > (maxSizeOf (componentsOf m.fg) : ℚ) * (1 / 100)) →
          c ⊆ (remove_small_components m).1.fg)) ∧
    (∀ m : Mask, m.fg = ∅ →
        (remove_small_components m).1 = m ∧
        List.lookup ("components_removed") (remove_small_components m).2 = some 0) ∧
    (∀ (m : Mask) (A B : Finset Pt), componentsOf m.fg = {A, B} → A ≠ B →
        A.card = 950 → B.card = 10 →
        List.lookup ("components_kept") (remove_small_components m).2 = some 2 ∧
        List.lookup ("voxels_removed") (remove_small_components m).2 = some 0) ∧
    (∀ (m : Mask) (A B : Finset Pt), componentsOf m.fg = {A, B} → A ≠ B →
        A.card = 950 → B.card = 9 →
        List.lookup ("voxels_removed") (remove_small_components m).2 = some 9) := by
  refine ⟨?_, ?_, ?_, ?_⟩
  · intro m c hc
    have hpos : ¬ (componentsOf m.fg).card = 0 := by
      intro h
      rw [Finset.card_eq_zero.mp h] at hc
      exact Finset.not_mem_empty c hc
    constructor
    · intro hle p hp hmem
      rw [remove_small_components_of_pos hpos] at hmem
      have hmem2 : p ∈ (keptComps (componentsOf m.fg)).biUnion id := hmem
      obtain ⟨c2, hc2, hpc2⟩ := Finset.mem_biUnion.mp hmem2
      obtain ⟨hc2m, hc2gt⟩ := mem_keptComps.mp hc2
      have hcc : c = c2 := components_disjoint hc hc2m hp hpc2
      rw [← hcc] at hc2gt
      exact absurd hc2gt (not_lt.mpr hle)
    · intro hgt q hq
      rw [remove_small_components_of_pos hpos]
      show q ∈ (keptComps (componentsOf m.fg)).biUnion id
      exact Finset.mem_biUnion.mpr ⟨c, mem_keptComps.mpr ⟨hc, hgt⟩, hq⟩
  · intro m hfg
    have h0 : (componentsOf m.fg).card = 0 := componentsOf_card_zero_iff.mpr hfg
    rw [remove_small_components_of_empty h0]
    exact ⟨rfl, lookup_components_removed_empty _⟩
  · intro m A B hcomps hne h950 h10
    obtain ⟨hA, hB, hcard, hfg, hdisj⟩ := two_comp_facts m A B hcomps hne
    rw [remove_small_components_of_pos hcard]
    constructor
    · rw [lookup_components_kept, hcomps, kept_pair_both A B h950 h10,
        Finset.card_insert_of_not_mem (by rw [Finset.mem_singleton]; exact hne),
        Finset.card_singleton]
      rfl
    · rw [lookup_voxels_removed, hcomps, kept_pair_both A B h950 h10, pair_biUnion, hfg]
      simp
  · intro m A B hcomps hne h950 h9
    obtain ⟨hA, hB, hcard, hfg, hdisj⟩ := two_comp_facts m A B hcomps hne
    rw [remove_small_components_of_pos hcard, lookup_voxels_removed, hcomps,
      kept_pair_first A B h950 h9, Finset.singleton_biUnion]
    simp only [id_eq]
    rw [hfg, Finset.card_union_of_disjoint hdisj, h950, h9]
    norm_num

theorem maxSizeOf_singleton (A : Finset Pt) : maxSizeOf {A} = A.card := by
  unfold maxSizeOf
  rw [Finset.sup_singleton]

/-- Witness for C3: the four parts instantiated on concrete masks: the
single 2000-voxel component is kept; the empty mask is returned
unchanged; the 950/10 mask keeps both components and removes nothing;
the 950/9 mask removes the 9 voxels of the small component. -/
theorem claim_C3_witness :
    (seg 0 2000 ⊆ (remove_small_components mask_line_2000).1.fg) ∧
    ((remove_small_components mask_empty).1 = mask_empty) ∧
    List.lookup ("components_kept") (remove_small_components mask_two_950_10).2 = some 2 ∧
    List.lookup ("voxels_removed") (remove_small_components mask_two_950_9).2 = some 9 := by
  have hcomp2000 : componentsOf mask_line_2000.fg = {seg 0 2000} :=
    componentsOf_one_seg (by norm_num)
  have hcomps10 : componentsOf mask_two_950_10.fg = {seg 0 950, seg 951 10} :=
    componentsOf_two_seg (by norm_num) (by norm_num) (by norm_num)
  have hcomps9 : componentsOf mask_two_950_9.fg = {seg 0 950, seg 951 9} :=
    componentsOf_two_seg (by norm_num) (by norm_num) (by norm_num)
  have hne10 : seg 0 950 ≠ seg 951 10 := by
    intro h
    have h2 := congrArg Finset.card h
    rw [card_seg, card_seg] at h2
    omega
  have hne9 : seg 0 950 ≠ seg 951 9 := by
    intro h
    have h2 := congrArg Finset.card h
    rw [card_seg, card_seg] at h2
    omega
  refine ⟨?_, ?_, ?_, ?_⟩
  · refine (claim_C3_small_component_removal.1 mask_line_2000 (seg 0 2000) ?_).2 ?_
    · rw [hcomp2000]
      exact Finset.mem_singleton_self _
    · rw [hcomp2000, maxSizeOf_singleton, card_seg]
      norm_num
  · exact (claim_C3_small_component_removal.2.1 mask_empty rfl).1
  · exact (claim_C3_small_component_removal.2.2.1 mask_two_950_10 (seg 0 950) (seg 951 10)
      hcomps10 hne10 (card_seg 0 950) (card_seg 951 10)).1
  · exact claim_C3_small_component_removal.2.2.2 mask_two_950_9 (seg 0 950) (seg 951 9)
      hcomps9 hne9 (card_seg 0 950) (card_seg 951 9)

theorem fill_fold_fst (ops : ScipyOps) (l : List ℕ) :
    ∀ (m : Mask) (k : ℕ),
      (l.foldl (fun acc z =>
          if (slice_fg acc.1 z).Nonempty then (fill_slice ops acc.1 z, acc.2 + 1) else acc)
        (m, k)).1 =
      l.foldl (fun acc z => if (slice_fg acc z).Nonempty then fill_slice ops acc z else acc)
        m := by
  induction l with
  | nil => exact fun m k => rfl
  | cons a t ih =>
    intro m k
    simp only [List.foldl_cons]
    by_cases hz : (slice_fg m a).Nonempty
    · rw [if_pos hz, if_pos hz]
      exact ih _ _
    · rw [if_neg hz, if_neg hz]
      exact ih m k

theorem fill_holes_2d_fst (ops : ScipyOps) (m : Mask) :
    (fill_holes_2d ops m).1 = worker_fill_loop ops m := by
  simp only [fill_holes_2d, worker_fill_loop]
  exact fill_fold_fst ops (List.range m.shape.1) m 0

theorem remove_small_fst_eq_worker (m : Mask) :
    (remove_small_components m).1 =
      (if (componentsOf m.fg).card > 0
       then (⟨m.shape, (keptComps (componentsOf m.fg)).biUnion id⟩ : Mask) else m) := by
  by_cases h : (componentsOf m.fg).card = 0
  · rw [remove_small_components_of_empty h, if_neg (by omega)]
  · rw [remove_small_components_of_pos h, if_pos (by omega)]

/-- C10: the worker's inlined pipeline `_refine_with_progress` returns
exactly the mask of `refine_mask` and the same statistics except for the
per-stage `steps` entries, which the worker does not record (its `steps`
list stays empty): the worker's result is the pipeline's result with the
`steps` field erased. -/
theorem claim_C10_worker_matches_refine (ops : ScipyOps) (m : Mask) (v : Volume)
    (sp : ℚ × ℚ × ℚ) (p : RefineParams) :
    worker_refine_with_progress ops m v sp p =
      Except.map (fun r => (r.1, { r.2 with steps := ([] : List StepEntry) }))
        (refine_mask ops m v sp p) := by
  by_cases hdil : p.dilation_iter > 0
  · simp only [worker_refine_with_progress, refine_mask, apply_hu_dilation,
      apply_morphological_closing, if_pos hdil]
    cases hma : maskAnd (ops.binary_dilation m p.dilation_iter)
        (lung_tissue_mask v p.hu_min p.hu_max) with
    | error e => rfl
    | ok m1 =>
      simp only [apply_ite Prod.fst, remove_small_fst_eq_worker, fill_holes_2d_fst,
        Except.map]
  · simp only [worker_refine_with_progress, refine_mask, apply_morphological_closing,
      if_neg hdil]
    simp only [apply_ite Prod.fst, remove_small_fst_eq_worker, fill_holes_2d_fst,
      Except.map]
